import Mathlib

/-
Shallow embedding of the mxstr library (mxstr.h, mxutil.h).

A C string reference (mxstr_t) is a pointer/length pair into a block of
memory.  We embed a view as an abstract address (`off`, the pointer as an
offset into its block) together with the list of bytes it references
(`data`, so `len` is `data.length`).  Bytes are natural numbers; the C
`unsigned char` conversion at a byte-write boundary is modelled with an
explicit `% 256`.

A buffer (mxbuf_t) owns a block whose bytes are `storage`; the C struct's
`buf` view is the whole block at offset 0 and its `available` view is the
window of `storage` starting at `availOff` with length `availLen`
(`available.ptr = buf.ptr + availOff`).  The view-level write routines
(mxstr_write, mxstr_putc, mxstr_write_chars) write through a pointer that
aliases the buffer's storage, so inside buffer operations their effect is
written out directly on `storage`; each line of the C routine is mirrored.

`mxutil_realloc` keeps the old contents (up to the new size) when it is
given the old pointer; when the buffer still uses the caller-supplied
initial range the code passes NULL, obtaining a fresh block whose contents
are indeterminate, modelled here as zero bytes.

Two integer conversions of the source are modelled explicitly because
they are observable: mxutil_size_p2 takes a uint32_t while its callers
pass size_t values, which narrow mod 2^32; and the mxstr_cmp tie-break
assigns a size_t difference to a 32-bit int, which wraps.
-/

/-- Fuel-driven bit length: for v ≥ 1 the number of binary digits of v
(⌊log2 v⌋ + 1), computed by halving; the fuel argument makes the recursion
structural.  Called with fuel = v, which always suffices. -/
def bitlenAux : Nat → Nat → Nat
  | 0, _ => 1
  | fuel+1, v => if v ≤ 1 then 1 else bitlenAux fuel (v / 2) + 1

/-- mxutil_size_p2: 1 << (32 - __builtin_clz(value)) in the C source,
the smallest power of 2 strictly larger than value, for a uint32_t
parameter: the callers pass size_t values, which narrow mod 2^32, so the
narrowing is part of the observable behaviour and is modelled explicitly.
Two C corner cases: __builtin_clz(0) is undefined behaviour (this model
uses 2 ^ 1 = 2; every library call site takes the max with mxutil_size_p2
of a nonzero count, so the choice is not observable here), and for
narrowed values ≥ 2^31 the shift 1 << 32 overflows int (the model extends
it with the mathematical value 2^32). -/
def mxutil_size_p2 (value : Nat) : Nat :=
  2 ^ bitlenAux (value % 2 ^ 32) (value % 2 ^ 32)

/-- mxstr_t: a string reference.  `off` models the pointer (as an offset
into the block of memory the view points into), `data` the referenced
bytes, so the C `len` field is `data.length`. -/
structure mxstr_t where
  off : Nat
  data : List Nat
  deriving DecidableEq

/-- The `len` field of a C mxstr_t. -/
def mxstr_t.len (s : mxstr_t) : Nat :=
  s.data.length

/-- mxstr_empty: a string is empty when it has length 0. -/
def mxstr_empty (str : mxstr_t) : Bool :=
  str.len == 0

/-- mxstr_substr_offset: offset of a substring within a string, computed
in C as the pointer difference substr.ptr - str.ptr (with an assertion
idx <= str.len). -/
def mxstr_substr_offset (str substr : mxstr_t) : Nat :=
  substr.off - str.off

/-- mxstr_prefix: the range of str from its start up to, but not
including, the first character of substr; ptr = str.ptr and
len = mxstr_substr_offset str substr, so its bytes are the first
idx bytes of str. -/
def mxstr_prefix_of (str substr : mxstr_t) : mxstr_t :=
  ⟨str.off, str.data.take (mxstr_substr_offset str substr)⟩

/-- mxstr_substr: the portion of str that falls within the requested
[start, stop) range (the C parameter named end is a Lean keyword).  The
three clamping steps of the source are mirrored in order, each clearing
the ok flag when it fires; the result points at &str.ptr[start'] with
length stop'' - start'. -/
def mxstr_substr (str : mxstr_t) (start stop : Nat) : mxstr_t × Bool :=
  let stop1 := if stop < start then start else stop
  let ok1 := !(decide (stop < start))
  let start1 := if start > str.len then str.len else start
  let ok2 := ok1 && !(decide (start > str.len))
  let stop2 := if stop1 > str.len then str.len else stop1
  let ok3 := ok2 && !(decide (stop1 > str.len))
  (⟨str.off + start1, (str.data.drop start1).take (stop2 - start1)⟩, ok3)

/-- memcmp s1 s2 n: C memcmp over the first n bytes, returning the
difference of the first unequal pair of bytes, 0 otherwise.  The callers
in this file always pass n ≤ the length of both lists. -/
def memcmp : List Nat → List Nat → Nat → Int
  | _, _, 0 => 0
  | [], _, _+1 => 0
  | _::_, [], _+1 => 0
  | x::xs, y::ys, n+1 => if x = y then memcmp xs ys n else (x : Int) - (y : Int)

/-- Model of the C tie-break assignment int cmp = str1.len - str2.len:
the size_t subtraction wraps mod 2^64, and assigning that value to a
32-bit int truncates mod 2^32 read as two's complement (the conversion of
an out-of-range value is implementation-defined in C; all mainstream
compilers wrap, which is what is modelled). -/
def int_of_size_diff (a b : Nat) : Int :=
  let d := ((a : Int) - (b : Int)) % 2 ^ 64
  let w := d % 2 ^ 32
  if w < 2 ^ 31 then w else w - 2 ^ 32

/-- mxstr_cmp: memcmp over min(len1, len2) bytes; on a tie the difference
of the lengths, computed in C as a size_t subtraction assigned to a
32-bit int (int_of_size_diff). -/
def mxstr_cmp (str1 str2 : mxstr_t) : Int :=
  let cmp := memcmp str1.data str2.data (min str1.len str2.len)
  if cmp = 0 then int_of_size_diff str1.len str2.len else cmp

/-- Helper: mxstr_cmp as a function of the two byte lists alone (the
offsets play no part in the comparison). -/
def cmpData (a b : List Nat) : Int :=
  let cmp := memcmp a b (min a.length b.length)
  if cmp = 0 then int_of_size_diff a.length b.length else cmp

/-- Helper: the ideal, untruncated comparison — memcmp followed by the
exact integer difference of the lengths.  It agrees with cmpData whenever
both lists are shorter than 2^31 (cmpData_eq_exact below). -/
def cmpDataExact (a b : List Nat) : Int :=
  let cmp := memcmp a b (min a.length b.length)
  if cmp = 0 then (a.length : Int) - (b.length : Int) else cmp

/-- mxstr_getchar: the first character of the string, if present.  The C
function writes through an out parameter only when the string is
non-empty; the model threads the out variable's previous value c. -/
def mxstr_getchar (str : mxstr_t) (c : Nat) : Nat × Bool :=
  match str.data with
  | [] => (c, false)
  | x :: _ => (x, true)

/-- mxstr_consume: remove up to len characters from the front of the
string, returning the updated string and the number removed. -/
def mxstr_consume (str : mxstr_t) (len : Nat) : mxstr_t × Nat :=
  let size := min str.len len
  (⟨str.off + size, str.data.drop size⟩, size)

/-- mxstr_consume_char: the C macro
mxstr_getchar(str, c) && match(c) && mxstr_consume(str, 1) == 1,
with short-circuit evaluation; returns (updated string, out variable,
result). -/
def mxstr_consume_char (str : mxstr_t) (c : Nat) (m : Nat → Bool) :
    mxstr_t × Nat × Bool :=
  let g := mxstr_getchar str c
  if g.2 then
    if m g.1 then
      let r := mxstr_consume str 1
      (r.1, g.1, decide (r.2 = 1))
    else (str, g.1, false)
  else (str, g.1, false)

/-- mxstr_consume_str: consume a matching prefix pfx from the start of
the string; mxstr_substr(str, 0, pfx.len) && mxstr_cmp(substr, pfx) == 0
&& mxstr_consume(str, pfx.len) == pfx.len, with short-circuiting (the
string is only updated once the first two conjuncts succeed). -/
def mxstr_consume_str (str pfx : mxstr_t) : mxstr_t × Bool :=
  let sub := mxstr_substr str 0 pfx.len
  if sub.2 then
    if mxstr_cmp sub.1 pfx = 0 then
      let r := mxstr_consume str pfx.len
      (r.1, decide (r.2 = pfx.len))
    else (str, false)
  else (str, false)

/-- mxutil_realloc: when keep is true (the C caller passed the live old
pointer) the old bytes are kept up to the new size, and any extra space is
indeterminate (modelled as zeros); when keep is false the C caller passed
NULL, so a fresh block with indeterminate contents (modelled as zeros) is
returned.  The result always has exactly length n. -/
def reallocBytes (keep : Bool) (s : List Nat) (n : Nat) : List Nat :=
  if keep then (s ++ List.replicate n 0).take n else List.replicate n 0

/-- mxbuf_t: an output buffer.  `storage` holds the bytes of the current
block (the C buf view is this block at offset 0), `availOff`/`availLen`
describe the available view as a window of that block
(available.ptr = buf.ptr + availOff), `owned` is the C pointer comparison
buf.ptr != init.ptr, and `initData` the caller-supplied initial block. -/
structure mxbuf_t where
  storage : List Nat
  availOff : Nat
  availLen : Nat
  owned : Bool
  initData : List Nat
  deriving DecidableEq

/-- The buf view of a buffer: the whole current block. -/
def mxbuf_buf (b : mxbuf_t) : mxstr_t :=
  ⟨0, b.storage⟩

/-- The available view of a buffer: the window of storage it denotes. -/
def mxbuf_available (b : mxbuf_t) : mxstr_t :=
  ⟨b.availOff, (b.storage.drop b.availOff).take b.availLen⟩

/-- mxbuf_create: wrap the caller-supplied memory; buf, available and
init all reference the supplied block. -/
def mxbuf_create (init : List Nat) : mxbuf_t :=
  ⟨init, 0, init.length, false, init⟩

/-- mxbuf_reset: available := buf. -/
def mxbuf_reset (b : mxbuf_t) : mxbuf_t :=
  { b with availOff := 0, availLen := b.storage.length }

/-- mxbuf_free: free any owned block, then buf := init, available := init
(the memory free itself has no observable effect in the model). -/
def mxbuf_free (b : mxbuf_t) : mxbuf_t :=
  ⟨b.initData, 0, b.initData.length, false, b.initData⟩

/-- mxbuf_trim: when the block is owned, realloc it down to the written
length and set available to the empty range at its end via
mxstr_substr(str, len, len). -/
def mxbuf_trim (b : mxbuf_t) : mxbuf_t :=
  if b.owned then
    let len := mxstr_substr_offset (mxbuf_buf b) (mxbuf_available b)
    let nd := reallocBytes true b.storage len
    let av := (mxstr_substr ⟨0, nd⟩ len len).1
    ⟨nd, av.off, av.len, b.owned, b.initData⟩
  else b

/-- mxbuf_require: ensure size additional bytes are available.  On growth
the new total capacity is max(mxutil_size_p2(buf.len),
mxutil_size_p2(size)); the old pointer is passed to realloc only when the
block is owned (otherwise NULL is passed and nothing is copied), and
available := mxstr_substr(new block, written length, new_size). -/
def mxbuf_require (b : mxbuf_t) (size : Nat) : mxbuf_t :=
  if b.availLen < size then
    let new_size := max (mxutil_size_p2 b.storage.length) (mxutil_size_p2 size)
    let len := mxstr_substr_offset (mxbuf_buf b) (mxbuf_available b)
    let nd := reallocBytes b.owned b.storage new_size
    let av := (mxstr_substr ⟨0, nd⟩ len new_size).1
    ⟨nd, av.off, av.len, true, b.initData⟩
  else b

/-- mxbuf_write: mxbuf_require(str.len) then mxstr_write(&available, str):
size = min(available.len, src.len) bytes of src are copied to
available.ptr = buf.ptr + availOff and available is advanced past them. -/
def mxbuf_write (b0 : mxbuf_t) (src : mxstr_t) : mxbuf_t × Nat :=
  let b := mxbuf_require b0 src.len
  let size := min b.availLen src.len
  (⟨b.storage.take b.availOff ++ src.data.take size
      ++ b.storage.drop (b.availOff + size),
    b.availOff + size, b.availLen - size, b.owned, b.initData⟩, size)

/-- mxbuf_putc: mxbuf_require(1) then mxstr_putc(&available, c): when the
available view is non-empty, write c (an unsigned char, hence % 256) at
its first byte and consume it. -/
def mxbuf_putc (b0 : mxbuf_t) (c : Nat) : mxbuf_t × Bool :=
  let b := mxbuf_require b0 1
  if !(mxstr_empty (mxbuf_available b)) then
    (⟨b.storage.set b.availOff (c % 256),
      b.availOff + 1, b.availLen - 1, b.owned, b.initData⟩, true)
  else (b, false)

/-- mxbuf_write_chars: mxbuf_require(n) then
mxstr_write_chars(&available, c, n): memset of min(available.len, n)
copies of the byte c, advancing available. -/
def mxbuf_write_chars (b0 : mxbuf_t) (c n : Nat) : mxbuf_t × Nat :=
  let b := mxbuf_require b0 n
  let size := min b.availLen n
  (⟨b.storage.take b.availOff ++ List.replicate size (c % 256)
      ++ b.storage.drop (b.availOff + size),
    b.availOff + size, b.availLen - size, b.owned, b.initData⟩, size)

/-- mxbuf_put_utf8: encode the codepoint as 1-4 bytes following the C
branch structure; each putc result is discarded, ok is false only in the
final else branch (c ≥ 0x110000), where nothing is written. -/
def mxbuf_put_utf8 (b : mxbuf_t) (c : Nat) : mxbuf_t × Bool :=
  if c < 0x80 then
    ((mxbuf_putc b c).1, true)
  else if c < 0x800 then
    let b1 := (mxbuf_putc b (0xc0 + ((c >>> 6) &&& 0x1f))).1
    let b2 := (mxbuf_putc b1 (0x80 + (c &&& 0x3f))).1
    (b2, true)
  else if c < 0x10000 then
    let b1 := (mxbuf_putc b (0xe0 + ((c >>> 12) &&& 0xf))).1
    let b2 := (mxbuf_putc b1 (0x80 + ((c >>> 6) &&& 0x3f))).1
    let b3 := (mxbuf_putc b2 (0x80 + (c &&& 0x3f))).1
    (b3, true)
  else if c < 0x110000 then
    let b1 := (mxbuf_putc b (0xf0 + ((c >>> 18) &&& 0x7))).1
    let b2 := (mxbuf_putc b1 (0x80 + ((c >>> 12) &&& 0x3f))).1
    let b3 := (mxbuf_putc b2 (0x80 + ((c >>> 6) &&& 0x3f))).1
    let b4 := (mxbuf_putc b3 (0x80 + (c &&& 0x3f))).1
    (b4, true)
  else (b, false)

/-- mxbuf_str: the buffer's contents, mxstr_prefix(buf, available): the
written bytes storage[0 .. availOff). -/
def mxbuf_str (b : mxbuf_t) : mxstr_t :=
  mxstr_prefix_of (mxbuf_buf b) (mxbuf_available b)

/-- The buffer invariant, as the specification states it: the available
view is a suffix of the buf view (available.ptr = buf.ptr + (buf.len -
available.len), i.e. availOff = storage.length - availLen, with
available.len ≤ buf.len). -/
def mxbuf_inv (b : mxbuf_t) : Prop :=
  b.availOff = b.storage.length - b.availLen ∧ b.availLen ≤ b.storage.length

instance (b : mxbuf_t) : Decidable (mxbuf_inv b) :=
  inferInstanceAs (Decidable (And _ _))

/-- Smallest power of two ≥ n.  Modelled from the claim's words "the next
power of two ≥ the current total capacity" / "≥ the required total size";
used only to state what the specification asserts the growth policy to
be, for comparison against mxbuf_require. -/
def specNextPow2Ge (n : Nat) : Nat :=
  if n ≤ 1 then 1 else 2 ^ bitlenAux (n - 1) (n - 1)

/-- Concrete trace: a zero-capacity buffer after mxbuf_write of the 5
bytes 1..5 (the buffer grows to capacity 8 and holds 5 written bytes). -/
def traceW1 : mxbuf_t × Nat :=
  mxbuf_write (mxbuf_create []) ⟨0, [1, 2, 3, 4, 5]⟩

/-- Concrete trace: traceW1's buffer after mxbuf_write of the 3 bytes
6..8 (capacity 8, fully written, heap-owned). -/
def traceW2 : mxbuf_t × Nat :=
  mxbuf_write traceW1.1 ⟨0, [6, 7, 8]⟩

/-- Concrete trace: traceW2's buffer after mxbuf_write of the 9 bytes
9..17. -/
def traceW3 : mxbuf_t × Nat :=
  mxbuf_write traceW2.1 ⟨0, [9, 10, 11, 12, 13, 14, 15, 16, 17]⟩

/-- Concrete trace: a buffer over a caller-supplied 4-byte range after
mxbuf_write of the 3 bytes 1..3 (still on the initial range). -/
def traceInit4 : mxbuf_t × Nat :=
  mxbuf_write (mxbuf_create [9, 9, 9, 9]) ⟨0, [1, 2, 3]⟩

/-- Concrete trace: writing codepoint 0x41 into a zero-capacity buffer. -/
def traceU1 : mxbuf_t × Bool :=
  mxbuf_put_utf8 (mxbuf_create []) 0x41

/-- Concrete trace: then writing codepoint 0x20AC. -/
def traceU2 : mxbuf_t × Bool :=
  mxbuf_put_utf8 traceU1.1 0x20AC

/-- Concrete trace: then writing codepoint 0x1F600. -/
def traceU3 : mxbuf_t × Bool :=
  mxbuf_put_utf8 traceU2.1 0x1F600

/-- Concrete trace: writing codepoint 0x20AC into a buffer created over a
caller-supplied 1-byte range (growth away from the caller range occurs
between the first and second encoded byte). -/
def traceUInit1 : mxbuf_t × Bool :=
  mxbuf_put_utf8 (mxbuf_create [9]) 0x20AC

/-- A view of 2^31 zero bytes, exercising the int truncation in the
mxstr_cmp tie-break (length difference INT_MIN). -/
def view2p31 : mxstr_t :=
  ⟨0, List.replicate (2 ^ 31) 0⟩

/-- A view of 2^32 zero bytes, exercising the int truncation in the
mxstr_cmp tie-break (length difference truncates to 0). -/
def view2p32 : mxstr_t :=
  ⟨0, List.replicate (2 ^ 32) 0⟩

/-- A buffer over a caller-supplied (2^32 + 4)-byte range, fully written:
reachable by mxbuf_create over such a range followed by one mxbuf_write
that fills it exactly (which triggers no growth), all defined behaviour
on a 64-bit size_t platform.  The next growth narrows the capacity to
uint32_t: mxutil_size_p2((2^32 + 4) % 2^32) = 8. -/
def hugeBuf : mxbuf_t :=
  ⟨List.replicate (2 ^ 32 + 4) 9, 2 ^ 32 + 4, 0, false,
    List.replicate (2 ^ 32 + 4) 9⟩

/-
Helper lemmas.
-/

theorem bitlenAux_bound : ∀ (fuel v : Nat), v ≤ fuel → v < 2 ^ bitlenAux fuel v := by
  intro fuel
  induction fuel with
  | zero =>
    intro v hv
    interval_cases v
    decide
  | succ f ih =>
    intro v hv
    by_cases h1 : v ≤ 1
    · simp [bitlenAux, h1]
      omega
    · have hdiv : v / 2 ≤ f := by omega
      have := ih (v / 2) hdiv
      simp [bitlenAux, h1]
      omega

theorem lt_mxutil_size_p2 (v : Nat) (h : v < 2 ^ 32) : v < mxutil_size_p2 v := by
  unfold mxutil_size_p2
  rw [Nat.mod_eq_of_lt h]
  exact bitlenAux_bound v v (Nat.le_refl v)

theorem take_succ_set (l : List Nat) (i x : Nat) (h : i < l.length) :
    (l.set i x).take (i + 1) = l.take i ++ [x] := by
  induction l generalizing i with
  | nil => simp at h
  | cons a as ih =>
    cases i with
    | zero => simp
    | succ j =>
      simp only [List.set_cons_succ, List.take_succ_cons, List.cons_append]
      rw [ih j (by simpa using h)]

theorem reallocBytes_length (keep : Bool) (s : List Nat) (n : Nat) :
    (reallocBytes keep s n).length = n := by
  cases keep <;> simp [reallocBytes]

theorem reallocBytes_take_keep (s : List Nat) (n m : Nat) (hm : m ≤ s.length)
    (hn : m ≤ n) : (reallocBytes true s n).take m = s.take m := by
  simp only [reallocBytes, if_pos]
  rw [List.take_take, Nat.min_eq_left hn, List.take_append_of_le_length hm]

theorem mxstr_cmp_eq_cmpData (s1 s2 : mxstr_t) :
    mxstr_cmp s1 s2 = cmpData s1.data s2.data := rfl

theorem cmpDataExact_nil_left (b : List Nat) : cmpDataExact [] b = -(b.length : Int) := by
  simp [cmpDataExact, memcmp]

theorem cmpDataExact_nil_right (a : List Nat) : cmpDataExact a [] = (a.length : Int) := by
  cases a <;> simp [cmpDataExact, memcmp]

theorem cmpDataExact_cons (x y : Nat) (xs ys : List Nat) :
    cmpDataExact (x :: xs) (y :: ys) =
      if x = y then cmpDataExact xs ys else (x : Int) - (y : Int) := by
  unfold cmpDataExact
  simp only [List.length_cons, Nat.succ_min_succ]
  by_cases h : x = y
  · have hm : memcmp (x :: xs) (y :: ys) (min xs.length ys.length + 1)
        = memcmp xs ys (min xs.length ys.length) := by
      simp [memcmp, h]
    rw [hm, if_pos h]
    split
    · push_cast
      ring
    · rfl
  · have hne : (x : Int) - (y : Int) ≠ 0 := by
      intro hc
      exact h (Nat.cast_inj.mp (sub_eq_zero.mp hc))
    have hm : memcmp (x :: xs) (y :: ys) (min xs.length ys.length + 1)
        = (x : Int) - (y : Int) := by
      simp [memcmp, h]
    rw [hm, if_neg h, if_neg hne]

theorem cmpDataExact_self (l : List Nat) : cmpDataExact l l = 0 := by
  induction l with
  | nil => simp [cmpDataExact_nil_left]
  | cons x xs ih => simp [cmpDataExact_cons, ih]

theorem cmpDataExact_neg (a : List Nat) : ∀ b, cmpDataExact a b = -cmpDataExact b a := by
  induction a with
  | nil =>
    intro b
    rw [cmpDataExact_nil_left, cmpDataExact_nil_right]
  | cons x xs ih =>
    intro b
    cases b with
    | nil =>
      rw [cmpDataExact_nil_left, cmpDataExact_nil_right]
      simp
    | cons y ys =>
      rw [cmpDataExact_cons, cmpDataExact_cons]
      by_cases h : x = y
      · subst h
        simp [ih ys]
      · rw [if_neg h, if_neg (fun hc => h hc.symm)]
        omega

theorem cmpDataExact_eq_zero_iff (a : List Nat) : ∀ b, cmpDataExact a b = 0 ↔ a = b := by
  induction a with
  | nil =>
    intro b
    rw [cmpDataExact_nil_left]
    cases b with
    | nil => simp
    | cons y ys =>
      constructor
      · intro hc
        exfalso
        simp at hc
        omega
      · intro hc
        exact absurd hc (by simp)
  | cons x xs ih =>
    intro b
    cases b with
    | nil =>
      rw [cmpDataExact_nil_right]
      simp
      omega
    | cons y ys =>
      rw [cmpDataExact_cons]
      by_cases h : x = y
      · subst h
        simp [ih ys]
      · rw [if_neg h]
        constructor
        · intro hc
          exact absurd (Nat.cast_inj.mp (sub_eq_zero.mp hc)) h
        · intro hc
          cases hc
          exact absurd rfl h

theorem cmpDataExact_trans (a : List Nat) :
    ∀ b c, cmpDataExact a b ≤ 0 → cmpDataExact b c ≤ 0 → cmpDataExact a c ≤ 0 := by
  induction a with
  | nil =>
    intro b c _ _
    rw [cmpDataExact_nil_left]
    omega
  | cons x xs ih =>
    intro b c h1 h2
    cases b with
    | nil =>
      rw [cmpDataExact_nil_right] at h1
      simp only [List.length_cons] at h1
      exfalso
      omega
    | cons y ys =>
      cases c with
      | nil =>
        rw [cmpDataExact_nil_right] at h2
        simp only [List.length_cons] at h2
        exfalso
        omega
      | cons z zs =>
        rw [cmpDataExact_cons] at h1 h2 ⊢
        by_cases hxy : x = y
        · rw [if_pos hxy] at h1
          by_cases hyz : y = z
          · rw [if_pos hyz] at h2
            have hxz : x = z := by omega
            rw [if_pos hxz]
            exact ih ys zs h1 h2
          · rw [if_neg hyz] at h2
            have hxz : x ≠ z := by omega
            rw [if_neg hxz]
            omega
        · rw [if_neg hxy] at h1
          by_cases hyz : y = z
          · have hxz : x ≠ z := by omega
            rw [if_neg hxz]
            omega
          · rw [if_neg hyz] at h2
            have hxz : x ≠ z := by omega
            rw [if_neg hxz]
            omega

theorem cmpDataExact_of_take_eq (a : List Nat) :
    ∀ b, a.take (min a.length b.length) = b.take (min a.length b.length) →
      cmpDataExact a b = (a.length : Int) - (b.length : Int) := by
  induction a with
  | nil =>
    intro b _
    rw [cmpDataExact_nil_left]
    simp
  | cons x xs ih =>
    intro b h
    cases b with
    | nil =>
      rw [cmpDataExact_nil_right]
      simp
    | cons y ys =>
      simp only [List.length_cons, Nat.succ_min_succ, List.take_succ_cons,
        List.cons.injEq] at h
      rw [cmpDataExact_cons, if_pos h.1, ih ys h.2]
      simp

theorem int_of_size_diff_self (a : Nat) : int_of_size_diff a a = 0 := by
  simp [int_of_size_diff]

theorem int_of_size_diff_succ (a b : Nat) :
    int_of_size_diff (a + 1) (b + 1) = int_of_size_diff a b := by
  unfold int_of_size_diff
  have h : ((a + 1 : Nat) : Int) - ((b + 1 : Nat) : Int)
      = (a : Int) - (b : Int) := by
    push_cast
    ring
  rw [h]

theorem int_of_size_diff_small (a b : Nat) (ha : a < 2 ^ 31) (hb : b < 2 ^ 31) :
    int_of_size_diff a b = (a : Int) - (b : Int) := by
  simp only [int_of_size_diff]
  split <;> omega

theorem cmpData_nil_left (b : List Nat) :
    cmpData [] b = int_of_size_diff 0 b.length := by
  simp [cmpData, memcmp]

theorem cmpData_nil_right (a : List Nat) :
    cmpData a [] = int_of_size_diff a.length 0 := by
  cases a <;> simp [cmpData, memcmp]

theorem cmpData_cons (x y : Nat) (xs ys : List Nat) :
    cmpData (x :: xs) (y :: ys) =
      if x = y then cmpData xs ys else (x : Int) - (y : Int) := by
  unfold cmpData
  simp only [List.length_cons, Nat.succ_min_succ]
  by_cases h : x = y
  · have hm : memcmp (x :: xs) (y :: ys) (min xs.length ys.length + 1)
        = memcmp xs ys (min xs.length ys.length) := by
      simp [memcmp, h]
    rw [hm, if_pos h]
    split
    · exact int_of_size_diff_succ xs.length ys.length
    · rfl
  · have hne : (x : Int) - (y : Int) ≠ 0 := by
      intro hc
      exact h (Nat.cast_inj.mp (sub_eq_zero.mp hc))
    have hm : memcmp (x :: xs) (y :: ys) (min xs.length ys.length + 1)
        = (x : Int) - (y : Int) := by
      simp [memcmp, h]
    rw [hm, if_neg h, if_neg hne]

theorem cmpData_self (l : List Nat) : cmpData l l = 0 := by
  induction l with
  | nil => simp [cmpData_nil_left, int_of_size_diff_self]
  | cons x xs ih => simp [cmpData_cons, ih]

theorem cmpData_eq_zero_iff_length (a : List Nat) :
    ∀ b : List Nat, a.length = b.length → (cmpData a b = 0 ↔ a = b) := by
  induction a with
  | nil =>
    intro b hb
    cases b with
    | nil => simp [cmpData_nil_left, int_of_size_diff_self]
    | cons y ys => simp at hb
  | cons x xs ih =>
    intro b hb
    cases b with
    | nil => simp at hb
    | cons y ys =>
      simp only [List.length_cons] at hb
      rw [cmpData_cons]
      by_cases h : x = y
      · subst h
        simp [ih ys (by omega)]
      · rw [if_neg h]
        constructor
        · intro hc
          exact absurd (Nat.cast_inj.mp (sub_eq_zero.mp hc)) h
        · intro hc
          cases hc
          exact absurd rfl h

theorem cmpData_eq_exact (a b : List Nat) (ha : a.length < 2 ^ 31)
    (hb : b.length < 2 ^ 31) : cmpData a b = cmpDataExact a b := by
  simp only [cmpData, cmpDataExact]
  split
  · exact int_of_size_diff_small a.length b.length ha hb
  · rfl

theorem mxstr_substr_fst_off (v : mxstr_t) (s e : Nat) :
    (mxstr_substr v s e).1.off = v.off + min s v.len := by
  simp only [mxstr_substr]
  split <;> omega

theorem mxstr_substr_fst_data (v : mxstr_t) (s e : Nat) :
    (mxstr_substr v s e).1.data
      = (v.data.drop (min s v.len)).take (min (max s e) v.len - min s v.len) := by
  simp only [mxstr_substr]
  have h1 : (if s > v.len then v.len else s) = min s v.len := by
    split <;> omega
  have h2 : (if (if e < s then s else e) > v.len then v.len
      else (if e < s then s else e)) = min (max s e) v.len := by
    by_cases hc : e < s
    · rw [if_pos hc]
      split <;> omega
    · rw [if_neg hc]
      split <;> omega
  rw [h1, h2]

theorem mxstr_substr_fst_len (v : mxstr_t) (s e : Nat) :
    (mxstr_substr v s e).1.len = min (max s e) v.len - min s v.len := by
  rw [mxstr_t.len, mxstr_substr_fst_data]
  simp only [List.length_take, List.length_drop]
  have : (v.data.length : Nat) = v.len := rfl
  omega

theorem mxstr_substr_snd (v : mxstr_t) (s e : Nat) :
    (mxstr_substr v s e).2 = false ↔ (e < s ∨ v.len < s ∨ v.len < e) := by
  simp only [mxstr_substr]
  by_cases h1 : e < s
  · simp [h1]
  · rw [if_neg h1]
    by_cases h2 : s > v.len <;> by_cases h3 : e > v.len <;>
      simp [h1, h2, h3]

theorem mxbuf_str_data (b : mxbuf_t) :
    (mxbuf_str b).data = b.storage.take b.availOff := by
  simp [mxbuf_str, mxstr_prefix_of, mxstr_substr_offset, mxbuf_buf, mxbuf_available]

theorem mxbuf_available_len (b : mxbuf_t) (h : mxbuf_inv b) :
    (mxbuf_available b).len = b.availLen := by
  obtain ⟨h1, h2⟩ := h
  simp only [mxbuf_available, mxstr_t.len, List.length_take, List.length_drop]
  omega

theorem mxbuf_written_offset (b : mxbuf_t) :
    mxstr_substr_offset (mxbuf_buf b) (mxbuf_available b) = b.availOff := by
  simp [mxstr_substr_offset, mxbuf_buf, mxbuf_available]

theorem mxbuf_require_grow_storage (b : mxbuf_t) (size : Nat)
    (hlt : b.availLen < size) :
    (mxbuf_require b size).storage = reallocBytes b.owned b.storage
      (max (mxutil_size_p2 b.storage.length) (mxutil_size_p2 size)) := by
  simp only [mxbuf_require, if_pos hlt]

theorem mxbuf_require_grow_owned (b : mxbuf_t) (size : Nat)
    (hlt : b.availLen < size) : (mxbuf_require b size).owned = true := by
  simp only [mxbuf_require, if_pos hlt]

theorem mxbuf_require_grow_initData (b : mxbuf_t) (size : Nat)
    (hlt : b.availLen < size) : (mxbuf_require b size).initData = b.initData := by
  simp only [mxbuf_require, if_pos hlt]

theorem mxbuf_require_grow_availOff (b : mxbuf_t) (size : Nat)
    (hlt : b.availLen < size) :
    (mxbuf_require b size).availOff
      = min b.availOff
          (max (mxutil_size_p2 b.storage.length) (mxutil_size_p2 size)) := by
  simp only [mxbuf_require, if_pos hlt, mxbuf_written_offset]
  rw [mxstr_substr_fst_off]
  dsimp only [mxstr_t.len]
  rw [reallocBytes_length]
  omega

theorem mxbuf_require_grow_availLen (b : mxbuf_t) (size : Nat)
    (hlt : b.availLen < size) :
    (mxbuf_require b size).availLen
      = max (mxutil_size_p2 b.storage.length) (mxutil_size_p2 size)
        - min b.availOff
            (max (mxutil_size_p2 b.storage.length) (mxutil_size_p2 size)) := by
  simp only [mxbuf_require, if_pos hlt, mxbuf_written_offset]
  rw [mxstr_substr_fst_len]
  dsimp only [mxstr_t.len]
  rw [reallocBytes_length]
  omega

theorem mxbuf_require_inv (b : mxbuf_t) (n : Nat) (h : mxbuf_inv b) :
    mxbuf_inv (mxbuf_require b n) := by
  by_cases hlt : b.availLen < n
  · constructor
    · rw [mxbuf_require_grow_availOff b n hlt,
        mxbuf_require_grow_availLen b n hlt,
        mxbuf_require_grow_storage b n hlt, reallocBytes_length]
      omega
    · rw [mxbuf_require_grow_availLen b n hlt,
        mxbuf_require_grow_storage b n hlt, reallocBytes_length]
      omega
  · simp only [mxbuf_require, if_neg hlt]
    exact h

theorem mxbuf_require_ge_one (b : mxbuf_t) (n : Nat) (h : mxbuf_inv b)
    (hsmall : b.storage.length < 2 ^ 32) (hn : 1 ≤ n) :
    1 ≤ (mxbuf_require b n).availLen := by
  by_cases hlt : b.availLen < n
  · obtain ⟨h1, h2⟩ := h
    have hp2 : b.storage.length < mxutil_size_p2 b.storage.length :=
      lt_mxutil_size_p2 _ hsmall
    have hmax : mxutil_size_p2 b.storage.length
        ≤ max (mxutil_size_p2 b.storage.length) (mxutil_size_p2 n) :=
      Nat.le_max_left _ _
    rw [mxbuf_require_grow_availLen b n hlt]
    omega
  · simp only [mxbuf_require, if_neg hlt]
    omega

theorem mxbuf_putc_spec (b : mxbuf_t) (c : Nat) (h : mxbuf_inv b)
    (hsmall : b.storage.length < 2 ^ 32) :
    (mxbuf_putc b c).2 = true ∧ mxbuf_inv (mxbuf_putc b c).1 ∧
      (mxbuf_str (mxbuf_putc b c).1).data
        = (mxbuf_str (mxbuf_require b 1)).data ++ [c % 256] := by
  have h1 : mxbuf_inv (mxbuf_require b 1) := mxbuf_require_inv b 1 h
  have hgt : 1 ≤ (mxbuf_require b 1).availLen :=
    mxbuf_require_ge_one b 1 h hsmall (by omega)
  have hlen := mxbuf_available_len (mxbuf_require b 1) h1
  have hne : mxstr_empty (mxbuf_available (mxbuf_require b 1)) = false := by
    rw [mxstr_empty, hlen]
    simp only [beq_eq_false_iff_ne, ne_eq]
    omega
  obtain ⟨ha, hb⟩ := h1
  have hofflt : (mxbuf_require b 1).availOff
      < (mxbuf_require b 1).storage.length := by
    omega
  refine ⟨?_, ⟨?_, ?_⟩, ?_⟩
  · simp only [mxbuf_putc, hne, Bool.not_false, if_true]
  · simp only [mxbuf_putc, hne, Bool.not_false, if_true, List.length_set]
    omega
  · simp only [mxbuf_putc, hne, Bool.not_false, if_true, List.length_set]
    omega
  · simp only [mxbuf_putc, hne, Bool.not_false, if_true]
    rw [mxbuf_str_data, mxbuf_str_data]
    dsimp only
    exact take_succ_set _ _ _ hofflt

theorem mxbuf_create_inv (init : List Nat) : mxbuf_inv (mxbuf_create init) := by
  constructor <;> simp [mxbuf_create]

theorem mxbuf_reset_inv (b : mxbuf_t) : mxbuf_inv (mxbuf_reset b) := by
  constructor <;> simp [mxbuf_reset]

theorem mxbuf_free_inv (b : mxbuf_t) : mxbuf_inv (mxbuf_free b) := by
  constructor <;> simp [mxbuf_free]

theorem mxbuf_trim_inv (b : mxbuf_t) (h : mxbuf_inv b) :
    mxbuf_inv (mxbuf_trim b) := by
  unfold mxbuf_trim
  split
  · simp only [mxbuf_written_offset]
    constructor
    · rw [mxstr_substr_fst_off, mxstr_substr_fst_len]
      dsimp only [mxstr_t.len]
      rw [reallocBytes_length]
      omega
    · rw [mxstr_substr_fst_len]
      dsimp only [mxstr_t.len]
      rw [reallocBytes_length]
      omega
  · exact h

theorem mxbuf_write_inv (b : mxbuf_t) (src : mxstr_t) (h : mxbuf_inv b) :
    mxbuf_inv (mxbuf_write b src).1 := by
  obtain ⟨ha, hb⟩ := mxbuf_require_inv b src.len h
  simp only [mxstr_t.len] at ha hb
  simp only [mxbuf_write, mxbuf_inv, mxstr_t.len, List.length_append,
    List.length_take, List.length_drop]
  constructor <;> omega

theorem mxbuf_write_chars_inv (b : mxbuf_t) (c n : Nat) (h : mxbuf_inv b) :
    mxbuf_inv (mxbuf_write_chars b c n).1 := by
  obtain ⟨ha, hb⟩ := mxbuf_require_inv b n h
  simp only [mxbuf_write_chars, mxbuf_inv, List.length_append,
    List.length_take, List.length_drop, List.length_replicate]
  constructor <;> omega

theorem mxbuf_putc_inv (b : mxbuf_t) (c : Nat) (h : mxbuf_inv b) :
    mxbuf_inv (mxbuf_putc b c).1 := by
  have h1 := mxbuf_require_inv b 1 h
  cases hx : mxstr_empty (mxbuf_available (mxbuf_require b 1)) with
  | false =>
    have hlen := mxbuf_available_len (mxbuf_require b 1) h1
    have hb1 : 1 ≤ (mxbuf_require b 1).availLen := by
      rw [mxstr_empty, hlen] at hx
      simp only [beq_eq_false_iff_ne, ne_eq] at hx
      omega
    obtain ⟨ha, hb⟩ := h1
    refine ⟨?_, ?_⟩ <;>
      simp only [mxbuf_putc, hx, Bool.not_false, if_true, List.length_set] <;>
      omega
  | true =>
    have hres : (mxbuf_putc b c).1 = mxbuf_require b 1 := by
      simp [mxbuf_putc, hx]
    rw [hres]
    exact h1

theorem mxbuf_put_utf8_inv (b : mxbuf_t) (c : Nat) (h : mxbuf_inv b) :
    mxbuf_inv (mxbuf_put_utf8 b c).1 := by
  unfold mxbuf_put_utf8
  split_ifs <;> dsimp only
  · exact mxbuf_putc_inv _ _ h
  · exact mxbuf_putc_inv _ _ (mxbuf_putc_inv _ _ h)
  · exact mxbuf_putc_inv _ _ (mxbuf_putc_inv _ _ (mxbuf_putc_inv _ _ h))
  · exact mxbuf_putc_inv _ _ (mxbuf_putc_inv _ _
      (mxbuf_putc_inv _ _ (mxbuf_putc_inv _ _ h)))
  · exact h

/-
Claim theorems.
-/

/-- C1: the claim states that mxbuf_write always appends all src.len bytes
and returns src.len, so that for a zero-capacity buffer the final contents
are the concatenation of every write.  The code violates this: writing 5,
then 3, then 9 bytes to a zero-capacity buffer makes the third write grow
the capacity only to max(p2(8), p2(9)) = 16 although 8 + 9 = 17 bytes are
needed, so it copies just 8 of the 9 bytes, returns 8 instead of 9, and
the final contents are the first 16 of the 17 written bytes. -/
theorem C1_mxbuf_write_drops_bytes :
    traceW1.2 = 5 ∧ traceW2.2 = 3 ∧
    traceW3.2 = 8 ∧ traceW3.2 ≠ 9 ∧
    (mxbuf_str traceW3.1).data
      = [1, 2, 3, 4, 5, 6, 7, 8, 9, 10, 11, 12, 13, 14, 15, 16] ∧
    (mxbuf_str traceW3.1).data
      ≠ [1, 2, 3, 4, 5] ++ [6, 7, 8] ++ [9, 10, 11, 12, 13, 14, 15, 16, 17] := by
  decide

/-- C2 counterexample: the claim says the new capacity equals the larger
of (next power of two ≥ current capacity) and (next power of two ≥
written + requested), and that the written bytes are preserved.  On the
reachable buffer traceW2.1 (capacity 8, 8 bytes written, heap-owned),
requiring 9 more bytes gives capacity 16 while the claimed formula gives
max(8, nextPow2Ge 17) = 32; and on the reachable buffer traceInit4.1
(caller-supplied 4-byte range, 3 bytes written, not owned), growth
allocates a fresh block without copying, so the 3 written bytes are not
preserved. -/
theorem C2_growth_policy_cex :
    (traceW2.1.availLen < 9 ∧
      (mxbuf_require traceW2.1 9).storage.length = 16 ∧
      max (specNextPow2Ge traceW2.1.storage.length)
          (specNextPow2Ge (traceW2.1.availOff + 9)) = 32 ∧
      (16 : Nat) ≠ 32) ∧
    (traceInit4.1.availLen < 2 ∧ traceInit4.1.owned = false ∧
      (mxbuf_require traceInit4.1 2).storage.take traceInit4.1.availOff
        ≠ traceInit4.1.storage.take traceInit4.1.availOff) := by
  decide

/-- C2 amended: whenever a write needs more space than the remaining
capacity, the new total capacity chosen by mxbuf_require equals the larger
of (the smallest power of two strictly greater than the current total
capacity narrowed to uint32_t) and (the smallest power of two strictly
greater than the additional bytes requested narrowed to uint32_t); when
the current block is heap-owned and smaller than 2^32 bytes the bytes
already written are preserved at the start of the reallocated storage,
and when the block is still a caller-supplied initial range the growth
allocates a fresh block without copying anything into it. -/
theorem C2_growth_policy_amended (b : mxbuf_t) (size : Nat) (h : mxbuf_inv b)
    (hlt : b.availLen < size) :
    (mxbuf_require b size).storage.length
      = max (mxutil_size_p2 b.storage.length) (mxutil_size_p2 size) ∧
    (b.owned = true → b.storage.length < 2 ^ 32 →
      (mxbuf_require b size).storage.take b.availOff
        = b.storage.take b.availOff) ∧
    (b.owned = false →
      (mxbuf_require b size).storage
        = List.replicate
            (max (mxutil_size_p2 b.storage.length) (mxutil_size_p2 size)) 0) := by
  refine ⟨?_, ?_, ?_⟩
  · rw [mxbuf_require_grow_storage b size hlt, reallocBytes_length]
  · intro hown hsmall
    rw [mxbuf_require_grow_storage b size hlt, hown]
    apply reallocBytes_take_keep
    · obtain ⟨h1, h2⟩ := h
      omega
    · obtain ⟨h1, h2⟩ := h
      have hp2 := lt_mxutil_size_p2 b.storage.length hsmall
      have hmax := Nat.le_max_left (mxutil_size_p2 b.storage.length)
        (mxutil_size_p2 size)
      omega
  · intro hown
    rw [mxbuf_require_grow_storage b size hlt, hown]
    simp [reallocBytes]

/-- Witness for C2_growth_policy_amended at the concrete owned buffer
traceW2.1 with 9 additional bytes requested. -/
theorem C2_growth_policy_amended_witness :
    mxbuf_inv traceW2.1 ∧ traceW2.1.availLen < 9 ∧
    (mxbuf_require traceW2.1 9).storage.length
      = max (mxutil_size_p2 traceW2.1.storage.length) (mxutil_size_p2 9) ∧
    (mxbuf_require traceW2.1 9).storage.take traceW2.1.availOff
      = traceW2.1.storage.take traceW2.1.availOff :=
  ⟨by decide, by decide,
    (C2_growth_policy_amended traceW2.1 9 (by decide) (by decide)).1,
    (C2_growth_policy_amended traceW2.1 9 (by decide) (by decide)).2.1
      (by decide) (by decide)⟩

/-- C6: the claim states that for every buffer, mxbuf_put_utf8 appends the
standard UTF-8 encoding and returns true for c < 0x110000.  The encoding
itself is correct — writing 0x41, 0x20AC, 0x1F600 into a zero-capacity
buffer yields exactly 41 E2 82 AC F0 9F 98 80, 0x110000 is rejected
without writing, and a surrogate (0xD800) is accepted — but the code
violates the claim on a buffer still inside a caller-supplied 1-byte
range: writing 0x20AC there returns true yet leaves contents
[0x00, 0x82, 0xAC], because the growth between the first and second
encoded byte allocates a fresh block without copying the 0xE2 already
written into the caller range. -/
theorem C6_put_utf8_eval :
    (traceU1.2 = true ∧ traceU2.2 = true ∧ traceU3.2 = true ∧
      (mxbuf_str traceU3.1).data
        = [0x41, 0xE2, 0x82, 0xAC, 0xF0, 0x9F, 0x98, 0x80]) ∧
    (mxbuf_put_utf8 traceU3.1 0x110000 = (traceU3.1, false)) ∧
    ((mxbuf_put_utf8 (mxbuf_create []) 0xD800).2 = true) ∧
    (traceUInit1.2 = true ∧
      (mxbuf_str (mxbuf_create [9])).data = [] ∧
      (mxbuf_str traceUInit1.1).data = [0x00, 0x82, 0xAC] ∧
      (mxbuf_str traceUInit1.1).data
        ≠ (mxbuf_str (mxbuf_create [9])).data ++ [0xE2, 0x82, 0xAC]) := by
  decide

/-- C3: mxstr_substr returns the requested sub-range clamped into
[0, v.len] — an in-bounds, possibly empty, sub-range of v — and ok is
false exactly when stop < start, start > v.len or stop > v.len; on a
10-byte view, substr 2 5 gives the exact 3-byte range at offset 2 with
ok = true, substr 5 3 gives ok = false and the empty range at offset 5,
and substr 20 25 gives ok = false and the empty range at offset 10. -/
theorem C3_mxstr_substr_clamps :
    (∀ (v : mxstr_t) (s e : Nat),
      (mxstr_substr v s e).1.off = v.off + min s v.len ∧
      ((mxstr_substr v s e).1.off - v.off) + (mxstr_substr v s e).1.len
        = min (max s e) v.len ∧
      (v.off ≤ (mxstr_substr v s e).1.off ∧
        ((mxstr_substr v s e).1.off - v.off) + (mxstr_substr v s e).1.len
          ≤ v.len) ∧
      (mxstr_substr v s e).1.data
        = (v.data.drop ((mxstr_substr v s e).1.off - v.off)).take
            ((mxstr_substr v s e).1.len) ∧
      ((mxstr_substr v s e).2 = false ↔ (e < s ∨ v.len < s ∨ v.len < e))) ∧
    mxstr_substr ⟨0, [0, 1, 2, 3, 4, 5, 6, 7, 8, 9]⟩ 2 5
      = (⟨2, [2, 3, 4]⟩, true) ∧
    mxstr_substr ⟨0, [0, 1, 2, 3, 4, 5, 6, 7, 8, 9]⟩ 5 3 = (⟨5, []⟩, false) ∧
    mxstr_substr ⟨0, [0, 1, 2, 3, 4, 5, 6, 7, 8, 9]⟩ 20 25
      = (⟨10, []⟩, false) := by
  refine ⟨?_, by decide, by decide, by decide⟩
  intro v s e
  have hoff := mxstr_substr_fst_off v s e
  have hlen := mxstr_substr_fst_len v s e
  have hdata := mxstr_substr_fst_data v s e
  refine ⟨hoff, ?_, ⟨?_, ?_⟩, ?_, mxstr_substr_snd v s e⟩
  · rw [hoff, hlen]
    omega
  · rw [hoff]
    omega
  · rw [hoff, hlen]
    omega
  · have hcan : v.off + min s v.len - v.off = min s v.len := by omega
    rw [hdata, hoff, hlen, hcan]

/-- C4 counterexample: the claim asserts prefix(a, s) ++ s = a for every
valid sub-slice s of a, but for the valid slice [2, 5) of a 10-byte view
the concatenation has only 5 bytes, so it cannot reconstruct a. -/
theorem C4_prefix_concat_cex :
    (mxstr_substr ⟨0, [0, 1, 2, 3, 4, 5, 6, 7, 8, 9]⟩ 2 5).2 = true ∧
    (mxstr_prefix_of ⟨0, [0, 1, 2, 3, 4, 5, 6, 7, 8, 9]⟩
          (mxstr_substr ⟨0, [0, 1, 2, 3, 4, 5, 6, 7, 8, 9]⟩ 2 5).1).data
        ++ (mxstr_substr ⟨0, [0, 1, 2, 3, 4, 5, 6, 7, 8, 9]⟩ 2 5).1.data
      ≠ [0, 1, 2, 3, 4, 5, 6, 7, 8, 9] := by
  decide

/-- C4 amended: for every view a and every valid sub-slice s of a
(returned by mxstr_substr with ok = true) that extends to the end of a
(stop index = a.len), the concatenation of mxstr_prefix(a, s) and s
equals a: same starting pointer, and the prefix bytes followed by the
slice bytes are exactly the bytes of a. -/
theorem C4_prefix_concat_amended (a : mxstr_t) (s : Nat) (sub : mxstr_t)
    (hsub : mxstr_substr a s a.len = (sub, true)) :
    (mxstr_prefix_of a sub).off = a.off ∧
    (mxstr_prefix_of a sub).data ++ sub.data = a.data := by
  have hok : (mxstr_substr a s a.len).2 = true := by
    rw [hsub]
  have hs : s ≤ a.len := by
    by_contra hcon
    have hf : (mxstr_substr a s a.len).2 = false :=
      (mxstr_substr_snd a s a.len).mpr (Or.inr (Or.inl (by omega)))
    rw [hok] at hf
    exact absurd hf (by simp)
  have hoff : sub.off = a.off + s := by
    have hh := mxstr_substr_fst_off a s a.len
    rw [hsub] at hh
    have hmin : min s a.len = s := by omega
    rw [hmin] at hh
    exact hh
  have hdata : sub.data = a.data.drop s := by
    have hd := mxstr_substr_fst_data a s a.len
    rw [hsub] at hd
    have h1 : min s a.len = s := by omega
    have h2 : min (max s a.len) a.len - s = a.len - s := by omega
    rw [h1, h2] at hd
    rw [hd]
    apply List.take_of_length_le
    have hlen : a.data.length = a.len := rfl
    simp only [List.length_drop]
    omega
  constructor
  · rfl
  · dsimp only [mxstr_prefix_of, mxstr_substr_offset]
    rw [hoff, hdata]
    have hcan : a.off + s - a.off = s := by omega
    rw [hcan]
    exact List.take_append_drop s a.data

/-- Witness for C4_prefix_concat_amended: slicing [2, 10) out of a
10-byte view and gluing the prefix back on reconstructs the view. -/
theorem C4_prefix_concat_amended_witness :
    (mxstr_prefix_of ⟨0, [0, 1, 2, 3, 4, 5, 6, 7, 8, 9]⟩
        ⟨2, [2, 3, 4, 5, 6, 7, 8, 9]⟩).data ++ [2, 3, 4, 5, 6, 7, 8, 9]
      = [0, 1, 2, 3, 4, 5, 6, 7, 8, 9] :=
  (C4_prefix_concat_amended ⟨0, [0, 1, 2, 3, 4, 5, 6, 7, 8, 9]⟩ 2
    ⟨2, [2, 3, 4, 5, 6, 7, 8, 9]⟩ (by decide)).2

/-- C5 counterexample: the tie-break int cmp = str1.len - str2.len is a
size_t difference truncated to a 32-bit int, so the claimed order
properties fail on views beyond the int range, in defined C behaviour:
against a view of 2^32 zero bytes the empty view compares equal (0)
instead of sorting first, and at a length difference of 2^31 both
directions of the comparison return INT_MIN, so the sign is not
antisymmetric. -/
theorem C5_mxstr_cmp_order_cex :
    ((⟨0, []⟩ : mxstr_t).len < view2p32.len ∧
      mxstr_cmp ⟨0, []⟩ view2p32 = 0 ∧
      ¬ mxstr_cmp ⟨0, []⟩ view2p32 < 0) ∧
    (Int.sign (mxstr_cmp ⟨0, []⟩ view2p31) = -1 ∧
      Int.sign (mxstr_cmp view2p31 ⟨0, []⟩) = -1 ∧
      Int.sign (mxstr_cmp ⟨0, []⟩ view2p31)
        ≠ - Int.sign (mxstr_cmp view2p31 ⟨0, []⟩)) := by
  have h32 : mxstr_cmp ⟨0, []⟩ view2p32 = int_of_size_diff 0 (2 ^ 32) := by
    simp only [mxstr_cmp_eq_cmpData, view2p32, cmpData_nil_left,
      List.length_replicate]
  have h31a : mxstr_cmp ⟨0, []⟩ view2p31 = int_of_size_diff 0 (2 ^ 31) := by
    simp only [mxstr_cmp_eq_cmpData, view2p31, cmpData_nil_left,
      List.length_replicate]
  have h31b : mxstr_cmp view2p31 ⟨0, []⟩ = int_of_size_diff (2 ^ 31) 0 := by
    simp only [mxstr_cmp_eq_cmpData, view2p31, cmpData_nil_right,
      List.length_replicate]
  refine ⟨⟨?_, ?_, ?_⟩, ?_, ?_, ?_⟩
  · simp only [mxstr_t.len, view2p32, List.length_replicate, List.length_nil]
    decide
  · rw [h32]
    decide
  · rw [h32]
    decide
  · rw [h31a]
    decide
  · rw [h31b]
    decide
  · rw [h31a, h31b]
    decide

/-- C5 amended: on views shorter than 2^31 bytes — where the int
conversion of the length difference is exact — mxstr_cmp is
reflexive-zero, antisymmetric in sign, transitive, compares byte-wise
over the first min(len, len) bytes with the shorter view sorting first on
a tie, and orders the concrete examples "ab" < "abc" and "b" > "aa". -/
theorem C5_mxstr_cmp_order_amended :
    (∀ a : mxstr_t, mxstr_cmp a a = 0) ∧
    (∀ a b : mxstr_t, a.len < 2 ^ 31 → b.len < 2 ^ 31 →
      Int.sign (mxstr_cmp a b) = - Int.sign (mxstr_cmp b a)) ∧
    (∀ a b c : mxstr_t, a.len < 2 ^ 31 → b.len < 2 ^ 31 → c.len < 2 ^ 31 →
      mxstr_cmp a b ≤ 0 → mxstr_cmp b c ≤ 0 → mxstr_cmp a c ≤ 0) ∧
    (∀ a b : mxstr_t, a.len < 2 ^ 31 → b.len < 2 ^ 31 →
      a.data.take (min a.len b.len) = b.data.take (min a.len b.len) →
        ((mxstr_cmp a b < 0 ↔ a.len < b.len) ∧
          (mxstr_cmp a b = 0 ↔ a.len = b.len))) ∧
    mxstr_cmp ⟨0, [97, 98]⟩ ⟨0, [97, 98, 99]⟩ < 0 ∧
    mxstr_cmp ⟨0, [98]⟩ ⟨0, [97, 97]⟩ > 0 := by
  refine ⟨?_, ?_, ?_, ?_, by decide, by decide⟩
  · intro a
    rw [mxstr_cmp_eq_cmpData]
    exact cmpData_self a.data
  · intro a b ha hb
    rw [mxstr_cmp_eq_cmpData, mxstr_cmp_eq_cmpData,
      cmpData_eq_exact a.data b.data ha hb, cmpData_eq_exact b.data a.data hb ha,
      cmpDataExact_neg a.data b.data, Int.sign_neg]
  · intro a b c ha hb hc h1 h2
    rw [mxstr_cmp_eq_cmpData, cmpData_eq_exact a.data b.data ha hb] at h1
    rw [mxstr_cmp_eq_cmpData, cmpData_eq_exact b.data c.data hb hc] at h2
    rw [mxstr_cmp_eq_cmpData, cmpData_eq_exact a.data c.data ha hc]
    exact cmpDataExact_trans a.data b.data c.data h1 h2
  · intro a b ha hb hpre
    have hcx : cmpDataExact a.data b.data
        = (a.data.length : Int) - (b.data.length : Int) :=
      cmpDataExact_of_take_eq a.data b.data hpre
    rw [mxstr_cmp_eq_cmpData, cmpData_eq_exact a.data b.data ha hb, hcx]
    have hla : a.data.length = a.len := rfl
    have hlb : b.data.length = b.len := rfl
    rw [hla, hlb]
    constructor <;> constructor <;> (intro hx; omega)

/-- Witness for C5_mxstr_cmp_order_amended: the transitivity component
applied to three concrete small views. -/
theorem C5_mxstr_cmp_order_amended_witness :
    mxstr_cmp ⟨0, [97]⟩ ⟨0, [97, 98]⟩ ≤ 0 ∧
    mxstr_cmp ⟨0, [97, 98]⟩ ⟨0, [98]⟩ ≤ 0 ∧
    mxstr_cmp ⟨0, [97]⟩ ⟨0, [98]⟩ ≤ 0 :=
  ⟨by decide, by decide,
    C5_mxstr_cmp_order_amended.2.2.1 ⟨0, [97]⟩ ⟨0, [97, 98]⟩ ⟨0, [98]⟩
      (by decide) (by decide) (by decide) (by decide) (by decide)⟩

/-- C7 counterexample: the claim says mxbuf_putc returns true for every
buffer state of any capacity.  hugeBuf is a well-formed, reachable buffer
(a fully written caller-supplied range of 2^32 + 4 bytes); growing it
narrows the capacity to uint32_t, so mxbuf_require(buf, 1) allocates only
max(p2(4), p2(1)) = 8 bytes and clamps available to the empty range at
offset 8 — mxstr_putc then takes its empty-destination failure branch and
mxbuf_putc returns false. -/
theorem C7_putc_cex :
    mxbuf_inv hugeBuf ∧ hugeBuf.storage.length = 2 ^ 32 + 4 ∧
    (mxbuf_putc hugeBuf 65).2 = false := by
  have hlt : hugeBuf.availLen < 1 := by
    decide
  have hL : hugeBuf.storage.length = 2 ^ 32 + 4 :=
    List.length_replicate _ _
  have hinv : mxbuf_inv hugeBuf := by
    constructor
    · rw [hL]
      decide
    · rw [hL]
      decide
  have hNS : max (mxutil_size_p2 hugeBuf.storage.length) (mxutil_size_p2 1)
      = 8 := by
    rw [hL]
    decide
  have havLen : (mxbuf_require hugeBuf 1).availLen = 0 := by
    rw [mxbuf_require_grow_availLen hugeBuf 1 hlt, hNS]
    decide
  have hem : mxstr_empty (mxbuf_available (mxbuf_require hugeBuf 1))
      = true := by
    rw [mxstr_empty]
    simp only [mxbuf_available, mxstr_t.len, havLen, List.take_zero,
      List.length_nil, beq_self_eq_true]
  refine ⟨hinv, hL, ?_⟩
  simp only [mxbuf_putc, hem, Bool.not_true]
  rw [if_neg Bool.false_ne_true]

/-- C7 amended: for every well-formed buffer state whose storage is
smaller than 2^32 bytes — so the uint32_t narrowing in the growth
computation is exact — and every byte c, mxbuf_require leaves at least
one byte of space, mxbuf_putc returns true, and the byte is appended to
the buffer's committed contents. -/
theorem C7_putc_amended (b : mxbuf_t) (c : Nat) (h : mxbuf_inv b)
    (hsmall : b.storage.length < 2 ^ 32) (hc : c < 256) :
    1 ≤ (mxbuf_require b 1).availLen ∧
    (mxbuf_putc b c).2 = true ∧
    (mxbuf_str (mxbuf_putc b c).1).data
      = (mxbuf_str (mxbuf_require b 1)).data ++ [c] := by
  have hs := mxbuf_putc_spec b c h hsmall
  refine ⟨mxbuf_require_ge_one b 1 h hsmall (by omega), hs.1, ?_⟩
  rw [hs.2.2, Nat.mod_eq_of_lt hc]

/-- Witness for C7_putc_amended at a zero-capacity buffer and byte 65. -/
theorem C7_putc_amended_witness :
    mxbuf_inv (mxbuf_create []) ∧
    (mxbuf_create []).storage.length < 2 ^ 32 ∧ (65 : Nat) < 256 ∧
    (mxbuf_putc (mxbuf_create []) 65).2 = true ∧
    (mxbuf_str (mxbuf_putc (mxbuf_create []) 65).1).data
      = (mxbuf_str (mxbuf_require (mxbuf_create []) 1)).data ++ [65] :=
  ⟨by decide, by decide, by decide,
    (C7_putc_amended (mxbuf_create []) 65 (by decide) (by decide)
      (by decide)).2.1,
    (C7_putc_amended (mxbuf_create []) 65 (by decide) (by decide)
      (by decide)).2.2⟩

/-- C8: mxstr_consume_str returns true and advances the view past exactly
p.len bytes iff the view begins with a byte-for-byte copy of p; otherwise
(including when p is longer than the view) it returns false and leaves the
view byte-for-byte unchanged (same pointer and length). -/
theorem C8_consume_str (v p : mxstr_t) :
    ((mxstr_consume_str v p).2 = true ↔ v.data.take p.len = p.data) ∧
    ((mxstr_consume_str v p).2 = true →
      (mxstr_consume_str v p).1 = ⟨v.off + p.len, v.data.drop p.len⟩) ∧
    ((mxstr_consume_str v p).2 = false → (mxstr_consume_str v p).1 = v) := by
  have hlp : p.len = p.data.length := rfl
  have hlv : v.len = v.data.length := rfl
  by_cases hle : p.len ≤ v.len
  · have htrue : (mxstr_substr v 0 p.len).2 = true := by
      cases hbb : (mxstr_substr v 0 p.len).2
      · exfalso
        have hd := (mxstr_substr_snd v 0 p.len).mp hbb
        omega
      · rfl
    have hsubdata : (mxstr_substr v 0 p.len).1.data = v.data.take p.len := by
      rw [mxstr_substr_fst_data]
      have h0 : min 0 v.len = 0 := by omega
      rw [h0, List.drop_zero]
      have h1 : min (max 0 p.len) v.len - 0 = p.len := by omega
      rw [h1]
    have hlensub : (v.data.take p.len).length = p.data.length := by
      simp only [List.length_take]
      omega
    have hcmp : (mxstr_cmp (mxstr_substr v 0 p.len).1 p = 0)
        ↔ v.data.take p.len = p.data := by
      rw [mxstr_cmp_eq_cmpData, hsubdata,
        cmpData_eq_zero_iff_length (v.data.take p.len) p.data hlensub]
    by_cases hceq : mxstr_cmp (mxstr_substr v 0 p.len).1 p = 0
    · have hmin : min v.len p.len = p.len := by omega
      have hres : mxstr_consume_str v p
          = (⟨v.off + p.len, v.data.drop p.len⟩, true) := by
        simp only [mxstr_consume_str, htrue, if_true, hceq, if_pos,
          mxstr_consume, hmin]
        simp
      rw [hres]
      refine ⟨?_, fun _ => rfl, ?_⟩
      · constructor
        · intro _
          exact hcmp.mp hceq
        · intro _
          rfl
      · intro hcon
        exact absurd hcon (by simp)
    · have hres : mxstr_consume_str v p = (v, false) := by
        simp only [mxstr_consume_str, htrue, if_true]
        rw [if_neg hceq]
      rw [hres]
      refine ⟨?_, ?_, fun _ => rfl⟩
      · constructor
        · intro hcon
          exact absurd hcon (by simp)
        · intro hdeq
          exact absurd (hcmp.mpr hdeq) hceq
      · intro hcon
        exact absurd hcon (by simp)
  · have hfalse : (mxstr_substr v 0 p.len).2 = false := by
      cases hbb : (mxstr_substr v 0 p.len).2
      · rfl
      · exfalso
        have hf := (mxstr_substr_snd v 0 p.len).mpr (Or.inr (Or.inr (by omega)))
        rw [hbb] at hf
        exact absurd hf (by simp)
    have hres : mxstr_consume_str v p = (v, false) := by
      simp only [mxstr_consume_str, hfalse]
      simp
    rw [hres]
    refine ⟨?_, ?_, fun _ => rfl⟩
    · constructor
      · intro hcon
        exact absurd hcon (by simp)
      · intro hdeq
        exfalso
        have hlen := congrArg List.length hdeq
        simp only [List.length_take] at hlen
        omega
    · intro hcon
      exact absurd hcon (by simp)

/-- Witness for C8_consume_str: consuming the prefix "<header>" from
"<header>rest" succeeds and leaves the view at "rest". -/
theorem C8_consume_str_witness :
    (mxstr_consume_str
        ⟨0, [60, 104, 101, 97, 100, 101, 114, 62, 114, 101, 115, 116]⟩
        ⟨0, [60, 104, 101, 97, 100, 101, 114, 62]⟩).1
      = ⟨8, [114, 101, 115, 116]⟩ :=
  (C8_consume_str
    ⟨0, [60, 104, 101, 97, 100, 101, 114, 62, 114, 101, 115, 116]⟩
    ⟨0, [60, 104, 101, 97, 100, 101, 114, 62]⟩).2.1 (by decide)

/-- C9: every buffer operation preserves the invariant that the available
view is the suffix of the buf view starting at the written length
(available.ptr = buf.ptr + (buf.len - available.len) and
available.len ≤ buf.len), and mxbuf_str returns the in-bounds prefix
storage[0 .. availOff) of the storage. -/
theorem C9_buffer_invariant :
    (∀ init : List Nat, mxbuf_inv (mxbuf_create init)) ∧
    (∀ b, mxbuf_inv b → mxbuf_inv (mxbuf_reset b)) ∧
    (∀ b, mxbuf_inv b → mxbuf_inv (mxbuf_free b)) ∧
    (∀ b, mxbuf_inv b → mxbuf_inv (mxbuf_trim b)) ∧
    (∀ b n, mxbuf_inv b → mxbuf_inv (mxbuf_require b n)) ∧
    (∀ b s, mxbuf_inv b → mxbuf_inv (mxbuf_write b s).1) ∧
    (∀ b c, mxbuf_inv b → mxbuf_inv (mxbuf_putc b c).1) ∧
    (∀ b c, mxbuf_inv b → mxbuf_inv (mxbuf_put_utf8 b c).1) ∧
    (∀ b c n, mxbuf_inv b → mxbuf_inv (mxbuf_write_chars b c n).1) ∧
    (∀ b, mxbuf_inv b →
      (mxbuf_available b).off
          = (mxbuf_buf b).off + ((mxbuf_buf b).len - (mxbuf_available b).len) ∧
        (mxbuf_available b).len ≤ (mxbuf_buf b).len) ∧
    (∀ b, mxbuf_inv b →
      (mxbuf_str b).data = b.storage.take b.availOff ∧
        (mxbuf_str b).len ≤ b.storage.length) := by
  refine ⟨mxbuf_create_inv, fun b _ => mxbuf_reset_inv b,
    fun b _ => mxbuf_free_inv b, fun b h => mxbuf_trim_inv b h,
    fun b n h => mxbuf_require_inv b n h, fun b s h => mxbuf_write_inv b s h,
    fun b c h => mxbuf_putc_inv b c h, fun b c h => mxbuf_put_utf8_inv b c h,
    fun b c n h => mxbuf_write_chars_inv b c n h, fun b h => ?_,
    fun b h => ⟨mxbuf_str_data b, ?_⟩⟩
  · have hav := mxbuf_available_len b h
    obtain ⟨h1, h2⟩ := h
    rw [hav]
    constructor
    · dsimp only [mxbuf_available, mxbuf_buf, mxstr_t.len]
      omega
    · dsimp only [mxbuf_buf, mxstr_t.len]
      omega
  · have h1 : (mxbuf_str b).len = (b.storage.take b.availOff).length := by
      rw [mxstr_t.len, mxbuf_str_data]
    rw [h1, List.length_take]
    omega

/-- Witness for C9_buffer_invariant: the reset component applied to a
concrete two-byte buffer. -/
theorem C9_buffer_invariant_witness :
    mxbuf_inv (mxbuf_create [3, 4]) ∧
    mxbuf_inv (mxbuf_reset (mxbuf_create [3, 4])) :=
  ⟨by decide, C9_buffer_invariant.2.1 (mxbuf_create [3, 4]) (by decide)⟩

/-- C10: for every non-empty view, mxstr_consume_char stores the view's
first byte into the out variable even when the match predicate rejects it
(returning false and leaving the view unchanged); the out variable keeps
its previous value exactly when the view is empty. -/
theorem C10_consume_char_out (v : mxstr_t) (c : Nat) (m : Nat → Bool) :
    (∀ x xs, v.data = x :: xs →
      ((mxstr_consume_char v c m).2.1 = x ∧
        (m x = false →
          (mxstr_consume_char v c m).2.2 = false ∧
          (mxstr_consume_char v c m).1 = v))) ∧
    (v.data = [] → mxstr_consume_char v c m = (v, c, false)) := by
  constructor
  · intro x xs hv
    have hg : mxstr_getchar v c = (x, true) := by
      unfold mxstr_getchar
      rw [hv]
    constructor
    · by_cases hm : m x
      · simp [mxstr_consume_char, hg, hm]
      · simp [mxstr_consume_char, hg, hm]
    · intro hm
      simp [mxstr_consume_char, hg, hm]
  · intro hv
    have hg : mxstr_getchar v c = (c, false) := by
      unfold mxstr_getchar
      rw [hv]
    simp [mxstr_consume_char, hg]

/-- Witness for C10_consume_char_out: a two-byte view with a predicate
that rejects everything still stores the first byte 55 into the out
variable, returns false and leaves the view unchanged. -/
theorem C10_consume_char_out_witness :
    (mxstr_consume_char ⟨0, [55, 56]⟩ 9 (fun _ => false)).2.1 = 55 ∧
    (mxstr_consume_char ⟨0, [55, 56]⟩ 9 (fun _ => false)).2.2 = false ∧
    (mxstr_consume_char ⟨0, [55, 56]⟩ 9 (fun _ => false)).1 = ⟨0, [55, 56]⟩ := by
  have h := (C10_consume_char_out ⟨0, [55, 56]⟩ 9 (fun _ => false)).1 55 [56] rfl
  exact ⟨h.1, (h.2 rfl).1, (h.2 rfl).2⟩
